import Mathlib

/-!
Verification of the devkit Docker build orchestrator
(`devkit/docker/build.py`) against its specification.

The Python source is shallowly embedded: pure helpers become Lean
functions, the external collaborators (file system, JSON config, the
`docker` command line tool, `hashlib`, `graphlib`) are modelled by
explicit inputs (byte lists, an environment of per-tag behaviours, a
config-file value) and by executable Lean implementations of the
algorithms the library functions perform (SHA-256, topological sort).
Bytes are `Nat` values below 256; 32-bit arithmetic is `Nat` arithmetic
reduced modulo `2 ^ 32`.
-/

namespace Devkit

/-! ### Content addresser: SHA-256 (model of `hashlib.sha256`)

`calculate_sha256` feeds the recipe file's bytes and then each
`"NAME=VALUE"` build-arg string (UTF-8 encoded) into an incremental
SHA-256 hasher and returns the hex digest.  The hasher context is the
list of bytes fed so far; the digest function is a full executable
SHA-256 over that byte list. -/

def w32 (n : Nat) : Nat := n % 4294967296

def rotr32 (x n : Nat) : Nat := w32 ((x >>> n) ||| (x <<< (32 - n)))

def bigSigma0 (x : Nat) : Nat := (rotr32 x 2) ^^^ (rotr32 x 13) ^^^ (rotr32 x 22)

def bigSigma1 (x : Nat) : Nat := (rotr32 x 6) ^^^ (rotr32 x 11) ^^^ (rotr32 x 25)

def smallSigma0 (x : Nat) : Nat := (rotr32 x 7) ^^^ (rotr32 x 18) ^^^ (x >>> 3)

def smallSigma1 (x : Nat) : Nat := (rotr32 x 17) ^^^ (rotr32 x 19) ^^^ (x >>> 10)

def sha256K : List Nat :=
  [1116352408, 1899447441, 3049323471, 3921009573, 961987163,
   1508970993, 2453635748, 2870763221, 3624381080, 310598401,
   607225278, 1426881987, 1925078388, 2162078206, 2614888103,
   3248222580, 3835390401, 4022224774, 264347078, 604807628,
   770255983, 1249150122, 1555081692, 1996064986, 2554220882,
   2821834349, 2952996808, 3210313671, 3336571891, 3584528711,
   113926993, 338241895, 666307205, 773529912, 1294757372,
   1396182291, 1695183700, 1986661051, 2177026350, 2456956037,
   2730485921, 2820302411, 3259730800, 3345764771, 3516065817,
   3600352804, 4094571909, 275423344, 430227734, 506948616,
   659060556, 883997877, 958139571, 1322822218, 1537002063,
   1747873779, 1955562222, 2024104815, 2227730452, 2361852424,
   2428436474, 2756734187, 3204031479, 3329325298]

def sha256InitH : List Nat :=
  [1779033703, 3144134277, 1013904242, 2773480762,
   1359893119, 2600822924, 528734635, 1541459225]

/-- Big-endian packing of bytes into 32-bit words. -/
def bytesToWords : List Nat → List Nat
  | b0 :: b1 :: b2 :: b3 :: rest => (((b0 * 256 + b1) * 256 + b2) * 256 + b3) :: bytesToWords rest
  | _ => []

/-- Message-schedule extension: append `k` further words to `ws`. -/
def extendW : Nat → List Nat → List Nat
  | 0, ws => ws
  | k + 1, ws =>
    let n := ws.length
    let next := w32 (ws.getD (n - 16) 0 + smallSigma0 (ws.getD (n - 15) 0) +
      ws.getD (n - 7) 0 + smallSigma1 (ws.getD (n - 2) 0))
    extendW k (ws ++ [next])

/-- One round of the SHA-256 compression function on the 8-word state. -/
def sha256Round (st : List Nat) (kw : Nat × Nat) : List Nat :=
  match st with
  | [a, b, c, d, e, f, g, h] =>
    let s1 := bigSigma1 e
    let ch := (e &&& f) ^^^ ((e ^^^ 0xffffffff) &&& g)
    let t1 := w32 (h + s1 + ch + kw.1 + kw.2)
    let s0 := bigSigma0 a
    let maj := (a &&& b) ^^^ (a &&& c) ^^^ (b &&& c)
    let t2 := w32 (s0 + maj)
    [w32 (t1 + t2), a, b, c, w32 (d + t1), e, f, g]
  | other => other

def sha256Block (hs : List Nat) (block : List Nat) : List Nat :=
  let ws := extendW 48 (bytesToWords block)
  let st := (List.zip sha256K ws).foldl sha256Round hs
  List.zipWith (fun x y => w32 (x + y)) hs st

/-- Big-endian 8-byte encoding of the 64-bit message bit length. -/
def be64 (n : Nat) : List Nat :=
  [(n >>> 56) % 256, (n >>> 48) % 256, (n >>> 40) % 256, (n >>> 32) % 256,
   (n >>> 24) % 256, (n >>> 16) % 256, (n >>> 8) % 256, n % 256]

/-- SHA-256 padding: a `0x80` byte, zeros, then the bit length, to a multiple of 64 bytes. -/
def padMsg (msg : List Nat) : List Nat :=
  let padZeros := (119 - msg.length % 64) % 64
  msg ++ [128] ++ List.replicate padZeros 0 ++ be64 (8 * msg.length)

/-- Split a byte list into 64-byte blocks; the fuel is any upper bound on the block count. -/
def chunks64 : Nat → List Nat → List (List Nat)
  | 0, _ => []
  | _, [] => []
  | k + 1, l => l.take 64 :: chunks64 k (l.drop 64)

def hexDigit (n : Nat) : Char := if n < 10 then Char.ofNat (48 + n) else Char.ofNat (87 + n)

def hex8 (x : Nat) : List Char :=
  [hexDigit ((x >>> 28) % 16), hexDigit ((x >>> 24) % 16), hexDigit ((x >>> 20) % 16),
   hexDigit ((x >>> 16) % 16), hexDigit ((x >>> 12) % 16), hexDigit ((x >>> 8) % 16),
   hexDigit ((x >>> 4) % 16), hexDigit (x % 16)]

/-- SHA-256 hex digest of a byte list. -/
def sha256hex (msg : List Nat) : String :=
  let padded := padMsg msg
  let hs := (chunks64 (padded.length) padded).foldl sha256Block sha256InitH
  String.mk ((hs.map hex8).flatten)

/-- UTF-8 encoding of one character (model of Python `str.encode("utf-8")`, per scalar value). -/
def utf8EncodeChar (c : Char) : List Nat :=
  let n := c.toNat
  if n < 128 then [n]
  else if n < 2048 then [192 + n / 64, 128 + n % 64]
  else if n < 65536 then [224 + n / 4096, 128 + (n / 64) % 64, 128 + n % 64]
  else [240 + n / 262144, 128 + (n / 4096) % 64, 128 + (n / 64) % 64, 128 + n % 64]

def utf8Bytes (s : String) : List Nat := (s.data.map utf8EncodeChar).flatten

/-- Incremental hasher context (`hashlib.sha256()` object): the bytes fed so far. -/
structure Sha256Ctx where
  buf : List Nat

/-- Model of `hasher.update(bs)`. -/
def hasherUpdate (c : Sha256Ctx) (bs : List Nat) : Sha256Ctx := ⟨c.buf ++ bs⟩

/-- Model of `hasher.hexdigest()`. -/
def hexdigest (c : Sha256Ctx) : String := sha256hex c.buf

/-- Embedding of `calculate_sha256(dockerfile_path, sorted_build_args)`.
The dockerfile's bytes stand in for the opened file (`f.read()`). -/
def calculate_sha256 (dockerfileBytes : List Nat) (sorted_build_args : List String) : String :=
  let hasher : Sha256Ctx := ⟨[]⟩
  let hasher := hasherUpdate hasher dockerfileBytes
  let hasher := sorted_build_args.foldl (fun c arg_val_pair => hasherUpdate c (utf8Bytes arg_val_pair)) hasher
  hexdigest hasher

/-! ### Tag resolver -/

/-- Embedding of the module-level constant `ARCH = "amd64"`. -/
def ARCH : String := "amd64"

/-- Embedding of `get_image_tag(image_name, sha)`; the global `REPO` is threaded explicitly.
Python's truthiness test `if REPO:` is `repo ≠ ""`. -/
def get_image_tag (repo : String) (image_name sha : String) : String :=
  let image_path := "devkit/" ++ image_name
  let tag_suffix := ARCH ++ "-" ++ sha
  if repo ≠ "" then repo ++ "/" ++ image_path ++ ":" ++ tag_suffix
  else image_path ++ ":" ++ tag_suffix

/-! ### Image configs and the dependency graph

`ImageConfig` is one `deps.json` entry: an insertion-ordered mapping from
build-arg name to dependency image name (a Python dict, modelled as an
association list).  `full_graph` is the dict comprehension
`{name: set(conf["deps"].values()) for ...}`; the Python `set` only ever
feeds node/edge membership downstream, so it is modelled as `dedup`. -/

abbrev ImageConfig := List (String × String)

abbrev ImageConfigsMap := List (String × ImageConfig)

abbrev Graph := List (String × List String)

def full_graph (cfgs : ImageConfigsMap) : Graph :=
  cfgs.map (fun p => (p.1, (p.2.map Prod.snd).dedup))

/-- Successor set of a node: its value in the graph dict, empty for nodes that
are only mentioned as dependencies. -/
def depsOf (g : Graph) (n : String) : List String := (g.lookup n).getD []

/-- All nodes known to `graphlib.TopologicalSorter`: the dict's keys plus every
node mentioned in a dependency set. -/
def nodesOf (g : Graph) : List String := (g.map Prod.fst ++ (g.map Prod.snd).flatten).dedup

/-! ### Topological sort (model of `TopologicalSorter.static_order`)

`static_order` emits, in successive batches, the nodes all of whose
predecessors (dependencies) were already emitted, and raises `CycleError`
exactly when it gets stuck with nodes left over.  The fuel is an upper
bound on the number of batches; `topoSort` passes one that is proven
sufficient (`kahnAux_acyclic_isSome`). -/

def isReady (g : Graph) (done : List String) (n : String) : Bool :=
  (depsOf g n).all (fun d => done.contains d)

def kahnAux (g : Graph) : Nat → List String → List String → Option (List String)
  | _, [], out => some out
  | 0, _ :: _, _ => none
  | fuel + 1, n :: rest, out =>
    let rs := (n :: rest).filter (isReady g out)
    if rs.isEmpty then none
    else kahnAux g fuel ((n :: rest).filter (fun m => ! isReady g out m)) (out ++ rs)

def topoSort (g : Graph) : Option (List String) :=
  kahnAux g (nodesOf g).length (nodesOf g) []

/-- The ordering property the spec demands of a topological order: every
dependency of the node at index `i` already occurs at some smaller index. -/
def validIdx (g : Graph) (order : List String) : Prop :=
  ∀ i, i < order.length → ∀ d ∈ depsOf g (order.getD i ""),
    ∃ j, j < i ∧ order.getD j "" = d

/-- Edge relation of the dependency graph: `edgeOf g n d` iff `d` is one of
`n`'s dependencies. -/
def edgeOf (g : Graph) (a b : String) : Prop := b ∈ depsOf g a

/-- Acyclicity: no node reaches itself through one or more dependency edges. -/
def Acyclic (g : Graph) : Prop := ∀ n, ¬ Relation.TransGen (edgeOf g) n n

/-- Forward reachability along dependency edges (zero or more steps). -/
def Reaches (g : Graph) (a b : String) : Prop := Relation.ReflTransGen (edgeOf g) a b

/-! ### Reachability worklist (first phase of `get_dependency_subgraph`)

The Python loop pops nodes from `nodes_to_visit`, records them in
`visited_nodes`, and pushes the popped node's dependencies.  Only the
membership of the resulting visited set is consumed downstream, so the
set pop order is modelled as list order.  The fuel passed by
`reachableFrom` is the worklist measure, which strictly decreases at
every step (`reachMeasure_decr_visited` / `reachMeasure_decr_new`), so
the loop always drains its worklist before the fuel runs out. -/

def reachAux (g : Graph) : Nat → List String → List String → List String
  | 0, _, visited => visited
  | _ + 1, [], visited => visited
  | fuel + 1, n :: rest, visited =>
    if visited.contains n then reachAux g fuel rest visited
    else reachAux g fuel (rest ++ depsOf g n) (visited ++ [n])

def sumDeps (g : Graph) : Nat := ((g.map Prod.snd).flatten).length

def reachMeasure (g : Graph) (toVisit visited : List String) : Nat :=
  ((nodesOf g).filter (fun x => ! visited.contains x)).length * (sumDeps g + 1) + toVisit.length

def reachableFrom (g : Graph) (t : String) : List String :=
  reachAux g (reachMeasure g [t] []) [t] []

/-- The dict comprehension
`{node: full_graph[node] for node in visited_nodes if node in full_graph}`. -/
def subgraphOf (g : Graph) (visited : List String) : Graph :=
  visited.filterMap (fun node => (g.lookup node).map (fun ds => (node, ds)))

/-- Embedding of `get_dependency_subgraph(target_image_name, image_configs_map)`.
`none` models the `sys.exit(1)` taken on `graphlib.CycleError`. -/
def get_dependency_subgraph (target_image_name : String)
    (image_configs_map : ImageConfigsMap) : Option (List String) :=
  if (image_configs_map.lookup target_image_name).isNone then some []
  else
    let fg := full_graph image_configs_map
    let visited_nodes := reachableFrom fg target_image_name
    topoSort (subgraphOf fg visited_nodes)

/-- The dependency graph of testable-property scenario A:
`{a → b, b → c, c → ∅, d → ∅}`. -/
def exampleGraphC3 : ImageConfigsMap :=
  [("a", [("DEP_B", "b")]), ("b", [("DEP_C", "c")]), ("c", []), ("d", [])]

/-- A graph whose only image `a` references the undeclared name `u`. -/
def exampleGraphC10 : ImageConfigsMap := [("a", [("X", "u")])]

/-! ### Docker orchestration state machine (`manage_docker_image`)

The external `docker` tool is modelled per tag by a `DockerEnv` recording
which subprocess calls succeed; `manage_docker_image` returns the exact
sequence of docker subcommands issued, whether the push-failure warning
was printed, and either a terminal state or the `sys.exit` code. -/

inductive DockerCmd
  | inspect
  | manifestInspect
  | pull
  | build
  | push
deriving DecidableEq

structure DockerEnv where
  localExists : Bool
  remoteExists : Bool
  pullSucceeds : Bool
  pullFailCode : Nat
  buildSucceeds : Bool
  buildFailCode : Nat
  pushSucceeds : Bool
deriving DecidableEq

inductive TermState
  | Skipped
  | Pulled
  | Pushed
  | BuiltLocalOnly
deriving DecidableEq

instance : DecidableEq (Except Nat TermState)
  | Except.ok x, Except.ok y =>
    match decEq x y with
    | isTrue h => isTrue (by rw [h])
    | isFalse h => isFalse (fun hc => h (by injection hc))
  | Except.ok _, Except.error _ => isFalse (fun hc => Except.noConfusion hc)
  | Except.error _, Except.ok _ => isFalse (fun hc => Except.noConfusion hc)
  | Except.error x, Except.error y =>
    match decEq x y with
    | isTrue h => isTrue (by rw [h])
    | isFalse h => isFalse (fun hc => h (by injection hc))

structure ManageOutcome where
  trace : List DockerCmd
  pushWarning : Bool
  result : Except Nat TermState
deriving DecidableEq

/-- Model of `sys.exit(e.returncode if e.returncode != 0 else 1)`. -/
def pyExit (code : Nat) : Nat := if code ≠ 0 then code else 1

def manage_docker_image (env : DockerEnv) : ManageOutcome :=
  if env.localExists then
    ⟨[DockerCmd.inspect], false, Except.ok TermState.Skipped⟩
  else if env.remoteExists then
    if env.pullSucceeds then
      ⟨[DockerCmd.inspect, DockerCmd.manifestInspect, DockerCmd.pull], false,
        Except.ok TermState.Pulled⟩
    else
      ⟨[DockerCmd.inspect, DockerCmd.manifestInspect, DockerCmd.pull], false,
        Except.error (pyExit env.pullFailCode)⟩
  else if env.buildSucceeds then
    if env.pushSucceeds then
      ⟨[DockerCmd.inspect, DockerCmd.manifestInspect, DockerCmd.build, DockerCmd.push], false,
        Except.ok TermState.Pushed⟩
    else
      ⟨[DockerCmd.inspect, DockerCmd.manifestInspect, DockerCmd.build, DockerCmd.push], true,
        Except.ok TermState.BuiltLocalOnly⟩
  else
    ⟨[DockerCmd.inspect, DockerCmd.manifestInspect, DockerCmd.build], false,
      Except.error (pyExit env.buildFailCode)⟩

/-! ### Per-image processing and the driver loop -/

inductive FatalReason
  | configDecode
  | printTagNeedsTarget
  | unknownTarget (t : String)
  | cycle
  | dockerfileMissing (img : String)
  | depUnresolved (img dep : String)
  | keyErrorUndeclared (img : String)
  | dockerError (tag : String)
  | printTagFallback
deriving DecidableEq

inductive RunOutcome
  | success (tags : List (String × String))
  | printedTag (tag : String)
  | fatal (code : Nat) (reason : FatalReason)
deriving DecidableEq

structure MainResult where
  log : List (String × ManageOutcome)
  outcome : RunOutcome
deriving DecidableEq

/-- The collaborators `process_image` consults: the configured registry
prefix, the Dockerfile found on the search paths for each image (as bytes),
and the docker tool behaviour for each tag. -/
structure Env where
  repo : String
  dockerfile : String → Option (List Nat)
  docker : String → DockerEnv

/-- Python `generated_tags[image_name] = tag`; only `lookup` is ever applied
to the map downstream, so dict update is modelled by prepending. -/
def dictInsert (k v : String) (m : List (String × String)) : List (String × String) :=
  (k, v) :: m.filter (fun p => p.1 != k)

/-- The dependency-resolution loop of `process_image`: for each
`(arg_name, dep_image_name)` item, look the dependency's tag up in
`generated_tags`, exiting at the first one that is absent. -/
def resolveDeps (img : String) (deps : List (String × String))
    (tags : List (String × String)) : Except FatalReason (List (String × String)) :=
  match deps with
  | [] => Except.ok []
  | (arg_name, dep_image_name) :: rest =>
    match tags.lookup dep_image_name with
    | none => Except.error (FatalReason.depUnresolved img dep_image_name)
    | some dep_tag =>
      match resolveDeps img rest tags with
      | Except.error e => Except.error e
      | Except.ok l => Except.ok ((arg_name, dep_tag) :: l)

/-- Ascending lexical sort, `build_args_for_sha_calc.sort()`. -/
def insertSorted (s : String) : List String → List String
  | [] => [s]
  | t :: ts => if s ≤ t then s :: t :: ts else t :: insertSorted s ts

def sortStrings (l : List String) : List String := l.foldr insertSorted []

inductive StepResult
  | next (tags : List (String × String)) (m : ManageOutcome)
  | halt (o : RunOutcome)

/-- The tag `process_image` computes for an image, given the resolved
build-arg pairs: content hash of the Dockerfile bytes plus the sorted
`"NAME=VALUE"` strings, formatted by `get_image_tag`. -/
def tagFor (env : Env) (img : String) (bytes : List Nat)
    (pairs : List (String × String)) : String :=
  get_image_tag env.repo img (calculate_sha256 bytes
    (sortStrings (pairs.map (fun p => p.1 ++ "=" ++ p.2))))

/-- Embedding of `process_image`.  The Dockerfile search over the search
paths is the environment lookup `env.dockerfile img` (`none` = found in no
search path); `sys.exit` becomes `StepResult.halt`. -/
def process_image (env : Env) (img : String) (dependencies : List (String × String))
    (generated_tags : List (String × String)) (print_tag_mode : Bool)
    (target_image_for_tag_print : Option String) : StepResult :=
  match env.dockerfile img with
  | none => StepResult.halt (RunOutcome.fatal 1 (FatalReason.dockerfileMissing img))
  | some dockerfileBytes =>
    match resolveDeps img dependencies generated_tags with
    | Except.error e => StepResult.halt (RunOutcome.fatal 1 e)
    | Except.ok pairs =>
      let build_args_for_sha_calc := sortStrings (pairs.map (fun p => p.1 ++ "=" ++ p.2))
      let current_sha := calculate_sha256 dockerfileBytes build_args_for_sha_calc
      let current_tag := get_image_tag env.repo img current_sha
      let tags2 := dictInsert img current_tag generated_tags
      let m := manage_docker_image (env.docker current_tag)
      match m.result with
      | Except.error code =>
        StepResult.halt (RunOutcome.fatal code (FatalReason.dockerError current_tag))
      | Except.ok _ =>
        if print_tag_mode then
          if target_image_for_tag_print = some img then
            StepResult.halt (RunOutcome.printedTag current_tag)
          else StepResult.next tags2 m
        else StepResult.next tags2 m

/-- The `for image_name in images_to_process` loop of `main`, accumulating
`generated_tags` and a log of completed images.  An undeclared name in the
order raises a Python `KeyError` at `image_configs_map[image_name]`. -/
def runImages (env : Env) (cfgs : ImageConfigsMap) (printTag : Bool)
    (target : Option String) :
    List String → List (String × String) → List (String × ManageOutcome) →
    List (String × ManageOutcome) × RunOutcome
  | [], tags, log => (log.reverse, RunOutcome.success tags)
  | img :: rest, tags, log =>
    match cfgs.lookup img with
    | none => (log.reverse, RunOutcome.fatal 1 (FatalReason.keyErrorUndeclared img))
    | some conf =>
      match process_image env img conf tags printTag target with
      | StepResult.halt o => (log.reverse, o)
      | StepResult.next tags2 m =>
        runImages env cfgs printTag target rest tags2 ((img, m) :: log)

/-- The devkit.json config file as seen by `load_config`: absent, present but
not decodable as JSON, or decoded with an optional `docker.registry` string. -/
inductive ConfigFile
  | absent
  | invalid
  | decoded (registry : Option String)

/-- Embedding of `load_config`: the value is the final content of the global
`REPO` (initially `""`); `Except.error 1` is the `sys.exit(1)` on a JSON
decode failure.  An absent file is skipped (`if os.path.exists(...)`). -/
def load_config : ConfigFile → Except Nat String
  | ConfigFile.absent => Except.ok ""
  | ConfigFile.invalid => Except.error 1
  | ConfigFile.decoded r => Except.ok (r.getD "")

/-- The part of `main` after `load_config` / `load_image_configs`: argument
validation, order computation, the processing loop, and the print-tag
fallback. -/
def run_after_config (repo : String) (cfgs : ImageConfigsMap)
    (files : String → Option (List Nat)) (docker : String → DockerEnv)
    (target : Option String) (printTag : Bool) : MainResult :=
  let env : Env := ⟨repo, files, docker⟩
  match printTag, target with
  | true, none => ⟨[], RunOutcome.fatal 1 FatalReason.printTagNeedsTarget⟩
  | true, some t =>
    if (cfgs.lookup t).isNone then ⟨[], RunOutcome.fatal 1 (FatalReason.unknownTarget t)⟩
    else
      match get_dependency_subgraph t cfgs with
      | none => ⟨[], RunOutcome.fatal 1 FatalReason.cycle⟩
      | some images =>
        let r := runImages env cfgs true (some t) images [] []
        match r.2 with
        | RunOutcome.success _ => ⟨r.1, RunOutcome.fatal 1 FatalReason.printTagFallback⟩
        | o => ⟨r.1, o⟩
  | false, some t =>
    if (cfgs.lookup t).isNone then ⟨[], RunOutcome.fatal 1 (FatalReason.unknownTarget t)⟩
    else
      match get_dependency_subgraph t cfgs with
      | none => ⟨[], RunOutcome.fatal 1 FatalReason.cycle⟩
      | some images =>
        let r := runImages env cfgs false (some t) images [] []
        ⟨r.1, r.2⟩
  | false, none =>
    match topoSort (full_graph cfgs) with
    | none => ⟨[], RunOutcome.fatal 1 FatalReason.cycle⟩
    | some images =>
      let r := runImages env cfgs false none images [] []
      ⟨r.1, r.2⟩

/-- Embedding of `main` for a run without a positional target: `load_config`
followed by the full-graph run.  The aggregated image configs and the
external-tool behaviours are inputs. -/
def main (cfg : ConfigFile) (cfgs : ImageConfigsMap)
    (files : String → Option (List Nat)) (docker : String → DockerEnv)
    (target : Option String) (printTag : Bool) : MainResult :=
  match load_config cfg with
  | Except.error _ => ⟨[], RunOutcome.fatal 1 FatalReason.configDecode⟩
  | Except.ok repo => run_after_config repo cfgs files docker target printTag

/-! ### Concrete fixtures for witnesses -/

def exampleCfgsC2Acyclic : ImageConfigsMap := [("a", [("D", "b")]), ("b", [])]

def exampleCfgsC2Cycle : ImageConfigsMap := [("a", [("D", "b")]), ("b", [("E", "a")])]

def exampleCfgsC7 : ImageConfigsMap := [("a", []), ("b", [("A", "a")])]

def exampleCfgsC9 : ImageConfigsMap := [("a", [])]

def exampleFiles : String → Option (List Nat) := fun _ => some []

/-- A docker tool for which every tag already exists locally. -/
def exampleDockerLocal : String → DockerEnv := fun _ => ⟨true, false, true, 0, true, 0, true⟩

def exampleEnvLocal : Env := ⟨"", exampleFiles, exampleDockerLocal⟩

/-- A tag absent everywhere whose build succeeds and whose push fails. -/
def exampleDockerC5 : DockerEnv := ⟨false, false, true, 0, true, 0, false⟩

def exampleEnvC5 : Env := ⟨"", exampleFiles, fun _ => exampleDockerC5⟩

/-- A tag absent locally, present remotely, whose pull fails with code 7. -/
def exampleDockerC6 : DockerEnv := ⟨false, true, false, 7, true, 0, true⟩

def exampleEnvC6 : Env := ⟨"", exampleFiles, fun _ => exampleDockerC6⟩

/-! ### Theorems -/

theorem foldl_hasherUpdate (args : List String) (buf : List Nat) :
    (args.foldl (fun c arg => hasherUpdate c (utf8Bytes arg)) ⟨buf⟩).buf
      = buf ++ (args.map utf8Bytes).flatten := by
  induction args generalizing buf with
  | nil => simp
  | cons a t ih =>
    have step : hasherUpdate ⟨buf⟩ (utf8Bytes a) = ⟨buf ++ utf8Bytes a⟩ := rfl
    rw [List.foldl_cons, step, ih, List.map_cons, List.flatten_cons, List.append_assoc]

/-- C1: `calculate_sha256` is the SHA-256 hex digest of the file bytes followed by
the UTF-8 bytes of each arg string in order; consequently it depends only on that
concatenated byte stream, so identical file bytes and identical args give identical
digests. -/
theorem spec_C1 (fileBytes : List Nat) (args : List String) :
    calculate_sha256 fileBytes args = sha256hex (fileBytes ++ (args.map utf8Bytes).flatten)
    ∧ ∀ fileBytes2 args2,
        fileBytes2 ++ (args2.map utf8Bytes).flatten = fileBytes ++ (args.map utf8Bytes).flatten →
        calculate_sha256 fileBytes2 args2 = calculate_sha256 fileBytes args := by
  have key : ∀ (fb : List Nat) (as : List String),
      calculate_sha256 fb as = sha256hex (fb ++ (as.map utf8Bytes).flatten) := by
    intro fb as
    show hexdigest (as.foldl (fun c arg => hasherUpdate c (utf8Bytes arg)) ⟨[] ++ fb⟩) = _
    rw [hexdigest, foldl_hasherUpdate, List.nil_append]
  refine ⟨key fileBytes args, fun fb2 as2 h => ?_⟩
  rw [key, key, h]

theorem spec_C1_witness :
    calculate_sha256 (utf8Bytes "A=b") [] = calculate_sha256 [] ["A=b"] :=
  (spec_C1 [] ["A=b"]).2 (utf8Bytes "A=b") [] (by simp)

theorem slash_devkit (s : String) : "/" ++ ("devkit/" ++ s) = "/devkit/" ++ s := by
  rw [← String.append_assoc]
  rfl

/-- C8: the formatted tag is `"{repo}/devkit/{name}:{arch}-{sha}"` when a registry
prefix is configured and `"devkit/{name}:{arch}-{sha}"` otherwise, with the concrete
instance `my-repo/devkit/foo:amd64-abc123`. -/
theorem spec_C8 :
    (∀ repo name sha, repo ≠ "" →
      get_image_tag repo name sha = repo ++ "/devkit/" ++ name ++ ":" ++ ARCH ++ "-" ++ sha)
    ∧ (∀ name sha, get_image_tag "" name sha = "devkit/" ++ name ++ ":" ++ ARCH ++ "-" ++ sha)
    ∧ get_image_tag "my-repo" "foo" "abc123" = "my-repo/devkit/foo:amd64-abc123" := by
  refine ⟨fun repo name sha h => ?_, fun name sha => ?_, by decide⟩
  · simp only [get_image_tag]
    rw [if_pos h]
    simp only [String.append_assoc, slash_devkit]
  · simp only [get_image_tag]
    rw [if_neg (by simp)]
    simp only [String.append_assoc]

theorem spec_C8_witness :
    "r" ≠ "" ∧ get_image_tag "r" "n" "s" = "r" ++ "/devkit/" ++ "n" ++ ":" ++ ARCH ++ "-" ++ "s" :=
  ⟨by decide, spec_C8.1 "r" "n" "s" (by decide)⟩

theorem contains_iff {l : List String} {a : String} : l.contains a = true ↔ a ∈ l :=
  List.elem_iff

theorem lookup_mem {α β : Type} [BEq α] [LawfulBEq α] {l : List (α × β)} {k : α} {v : β}
    (h : l.lookup k = some v) : (k, v) ∈ l := by
  induction l with
  | nil => simp [List.lookup] at h
  | cons p t ih =>
    rcases p with ⟨a, b⟩
    cases hk : (k == a) with
    | true =>
      have ha : k = a := by simpa using hk
      subst ha
      simp [List.lookup] at h
      subst h
      exact List.mem_cons_self _ _
    | false =>
      simp only [List.lookup, hk] at h
      exact List.mem_cons_of_mem _ (ih h)

theorem isReady_iff {g : Graph} {out : List String} {n : String} :
    isReady g out n = true ↔ ∀ d ∈ depsOf g n, d ∈ out := by
  simp only [isReady, List.all_eq_true]
  constructor
  · intro h d hd; exact contains_iff.mp (h d hd)
  · intro h d hd; exact contains_iff.mpr (h d hd)

theorem deps_sub_nodes {g : Graph} {n d : String} (h : d ∈ depsOf g n) : d ∈ nodesOf g := by
  unfold depsOf at h
  cases hl : g.lookup n with
  | none => rw [hl] at h; simp at h
  | some ds =>
    rw [hl, Option.getD_some] at h
    have hds : ds ∈ g.map Prod.snd := List.mem_map_of_mem Prod.snd (lookup_mem hl)
    have : d ∈ (g.map Prod.snd).flatten := List.mem_flatten.mpr ⟨ds, hds, h⟩
    exact List.mem_dedup.mpr (List.mem_append_right _ this)

theorem key_mem_nodes {g : Graph} {n : String} {ds : List String}
    (h : g.lookup n = some ds) : n ∈ nodesOf g :=
  List.mem_dedup.mpr (List.mem_append_left _ (List.mem_map_of_mem Prod.fst (lookup_mem h)))

theorem getD_mem {l : List String} {i : Nat} (h : i < l.length) : l.getD i "" ∈ l := by
  rw [List.getD_eq_getElem l "" h]
  exact List.getElem_mem h

theorem mem_getD {l : List String} {a : String} (h : a ∈ l) :
    ∃ i, i < l.length ∧ l.getD i "" = a := by
  rcases List.mem_iff_getElem.mp h with ⟨i, hi, he⟩
  exact ⟨i, hi, by rw [List.getD_eq_getElem l "" hi]; exact he⟩

theorem getD_append_left {l₁ l₂ : List String} {i : Nat} (h : i < l₁.length) :
    (l₁ ++ l₂).getD i "" = l₁.getD i "" := by
  have h2 : i < (l₁ ++ l₂).length := by simp; omega
  rw [List.getD_eq_getElem _ "" h2, List.getD_eq_getElem _ "" h]
  exact List.getElem_append_left h

theorem getD_append_right {l₁ l₂ : List String} {i : Nat} (h1 : l₁.length ≤ i)
    (h2 : i < (l₁ ++ l₂).length) : (l₁ ++ l₂).getD i "" = l₂.getD (i - l₁.length) "" := by
  have h3 : i - l₁.length < l₂.length := by simp at h2; omega
  rw [List.getD_eq_getElem _ "" h2, List.getD_eq_getElem _ "" h3]
  exact List.getElem_append_right h1

theorem validIdx_append {g : Graph} {out rs : List String}
    (hout : validIdx g out) (hrs : ∀ r ∈ rs, ∀ d ∈ depsOf g r, d ∈ out) :
    validIdx g (out ++ rs) := by
  intro i hi d hd
  rcases Nat.lt_or_ge i out.length with hlt | hge
  · rw [getD_append_left hlt] at hd
    rcases hout i hlt d hd with ⟨j, hj, he⟩
    exact ⟨j, hj, by rw [getD_append_left (Nat.lt_trans hj hlt)]; exact he⟩
  · rw [getD_append_right hge hi] at hd
    have hr : rs.getD (i - out.length) "" ∈ rs := by
      apply getD_mem
      simp at hi; omega
    have hdo : d ∈ out := hrs _ hr d hd
    rcases mem_getD hdo with ⟨j, hj, he⟩
    exact ⟨j, by omega, by rw [getD_append_left hj]; exact he⟩

theorem kahnAux_sound (g : Graph) :
    ∀ (fuel : Nat) (remaining out order : List String),
      kahnAux g fuel remaining out = some order → validIdx g out →
      validIdx g order ∧ List.Perm order (out ++ remaining) := by
  intro fuel
  induction fuel with
  | zero =>
    intro remaining out order h hout
    cases remaining with
    | nil =>
      simp only [kahnAux, Option.some.injEq] at h
      subst h
      exact ⟨hout, by simp⟩
    | cons n rest => simp [kahnAux] at h
  | succ fuel ih =>
    intro remaining out order h hout
    cases remaining with
    | nil =>
      simp only [kahnAux, Option.some.injEq] at h
      subst h
      exact ⟨hout, by simp⟩
    | cons n rest =>
      rw [kahnAux] at h
      by_cases hemp : ((n :: rest).filter (isReady g out)).isEmpty
      · rw [if_pos hemp] at h; exact absurd h (by simp)
      · rw [if_neg hemp] at h
        have hready : ∀ r ∈ (n :: rest).filter (isReady g out), ∀ d ∈ depsOf g r, d ∈ out := by
          intro r hr
          exact isReady_iff.mp (List.mem_filter.mp hr).2
        rcases ih _ _ _ h (validIdx_append hout hready) with ⟨hv, hp⟩
        refine ⟨hv, hp.trans ?_⟩
        rw [List.append_assoc]
        apply List.Perm.append_left
        exact List.filter_append_perm _ (n :: rest)

theorem topoSort_sound {g : Graph} {order : List String} (h : topoSort g = some order) :
    validIdx g order ∧ List.Perm order (nodesOf g) ∧ order.Nodup := by
  have hnil : validIdx g [] := by intro i hi; simp at hi
  rcases kahnAux_sound g (nodesOf g).length (nodesOf g) [] order h hnil with ⟨hv, hp⟩
  rw [List.nil_append] at hp
  exact ⟨hv, hp, hp.nodup_iff.mpr (List.nodup_dedup _)⟩

theorem filter_not_length_lt {p : String → Bool} {l : List String}
    (h : l.filter p ≠ []) : (l.filter (fun x => ! p x)).length < l.length := by
  have hp := (List.filter_append_perm p l).length_eq
  rw [List.length_append] at hp
  have h1 : (l.filter p).length ≠ 0 := fun h0 => h (List.length_eq_zero.mp h0)
  omega

theorem kahn_progress {g : Graph} {out remaining : List String}
    (hacy : Acyclic g) (hperm : List.Perm (out ++ remaining) (nodesOf g))
    (hne : remaining ≠ []) :
    remaining.filter (isReady g out) ≠ [] := by
  intro hstuck
  have hstep : ∀ m, ∃ d, m ∈ remaining → (edgeOf g m d ∧ d ∈ remaining) := by
    intro m
    by_cases hm : m ∈ remaining
    · have hnotready : ¬ isReady g out m = true := by
        intro hr
        have : m ∈ remaining.filter (isReady g out) := List.mem_filter.mpr ⟨hm, hr⟩
        rw [hstuck] at this
        simp at this
      have : ¬ ∀ d ∈ depsOf g m, d ∈ out := fun hall => hnotready (isReady_iff.mpr hall)
      push_neg at this
      rcases this with ⟨d, hd, hdo⟩
      refine ⟨d, fun _ => ⟨hd, ?_⟩⟩
      have hdn : d ∈ nodesOf g := deps_sub_nodes hd
      rcases List.mem_append.mp (hperm.mem_iff.mpr hdn) with h1 | h2
      · exact absurd h1 hdo
      · exact h2
    · exact ⟨m, fun hc => absurd hc hm⟩
  choose f hf using hstep
  rcases List.exists_mem_of_ne_nil remaining hne with ⟨x₀, hx₀⟩
  have hiter_mem : ∀ k, f^[k] x₀ ∈ remaining := by
    intro k
    induction k with
    | zero => simpa using hx₀
    | succ k ih =>
      rw [Function.iterate_succ_apply']
      exact (hf _ ih).2
  have hchain : ∀ (i k : Nat), 0 < k →
      Relation.TransGen (edgeOf g) (f^[i] x₀) (f^[i + k] x₀) := by
    intro i k hk
    induction k with
    | zero => omega
    | succ k ih =>
      rcases Nat.eq_zero_or_pos k with h0 | hpos
      · subst h0
        rw [show i + 1 = i + 1 from rfl, Function.iterate_succ_apply']
        exact Relation.TransGen.single (hf _ (hiter_mem i)).1
      · have hstep2 : edgeOf g (f^[i + k] x₀) (f^[i + (k + 1)] x₀) := by
          rw [show i + (k + 1) = (i + k) + 1 by omega, Function.iterate_succ_apply']
          exact (hf _ (hiter_mem _)).1
        exact Relation.TransGen.tail (ih hpos) hstep2
  have hmaps : ∀ k : Fin (remaining.length + 1), (fun k : Fin (remaining.length + 1) => f^[k.val] x₀) k ∈ remaining.toFinset := by
    intro k
    rw [List.mem_toFinset]
    exact hiter_mem k.val
  have hcard : remaining.toFinset.card < (Finset.univ : Finset (Fin (remaining.length + 1))).card := by
    rw [Finset.card_univ, Fintype.card_fin]
    exact Nat.lt_succ_of_le (List.toFinset_card_le remaining)
  rcases Finset.exists_ne_map_eq_of_card_lt_of_maps_to hcard (fun k _ => hmaps k) with
    ⟨a, _, b, _, hab, he⟩
  rcases Nat.lt_or_ge a.val b.val with hlt | hge
  · have h1 := hchain a.val (b.val - a.val) (by omega)
    rw [show a.val + (b.val - a.val) = b.val by omega, ← he] at h1
    exact hacy _ h1
  · have hlt : b.val < a.val := by
      rcases Nat.lt_or_ge b.val a.val with h | h
      · exact h
      · exact absurd (Fin.ext (by omega)) hab
    have h1 := hchain b.val (a.val - b.val) (by omega)
    rw [show b.val + (a.val - b.val) = a.val by omega, he] at h1
    exact hacy _ h1

theorem kahnAux_acyclic_isSome {g : Graph} (hacy : Acyclic g) :
    ∀ (fuel : Nat) (remaining out : List String),
      remaining.length ≤ fuel → List.Perm (out ++ remaining) (nodesOf g) →
      (kahnAux g fuel remaining out).isSome := by
  intro fuel
  induction fuel with
  | zero =>
    intro remaining out hlen hperm
    have h0 : remaining = [] := List.length_eq_zero.mp (Nat.le_zero.mp hlen)
    subst h0
    simp [kahnAux]
  | succ fuel ih =>
    intro remaining out hlen hperm
    cases remaining with
    | nil => simp [kahnAux]
    | cons n rest =>
      rw [kahnAux]
      have hrs := kahn_progress hacy hperm (by simp)
      rw [if_neg (by simpa using hrs)]
      apply ih
      · have := filter_not_length_lt hrs
        simp only [List.length_cons] at this hlen ⊢
        omega
      · have hstep : List.Perm
            ((out ++ (n :: rest).filter (isReady g out)) ++ (n :: rest).filter (fun m => ! isReady g out m))
            (out ++ n :: rest) := by
          rw [List.append_assoc]
          exact List.Perm.append_left out (List.filter_append_perm _ _)
        exact hstep.trans hperm

theorem topoSort_acyclic_isSome {g : Graph} (hacy : Acyclic g) : (topoSort g).isSome :=
  kahnAux_acyclic_isSome hacy _ _ _ (Nat.le_refl _) (by simp)

theorem indexOf_edge_lt {g : Graph} {order : List String} (hv : validIdx g order)
    (hnd : order.Nodup) {a b : String} (hab : edgeOf g a b) (ha : a ∈ order) :
    b ∈ order ∧ order.indexOf b < order.indexOf a := by
  have hia : order.indexOf a < order.length := List.indexOf_lt_length.mpr ha
  have hga : order.getD (order.indexOf a) "" = a := by
    rw [List.getD_eq_getElem _ "" hia]
    exact List.getElem_indexOf hia
  have hd : b ∈ depsOf g (order.getD (order.indexOf a) "") := by
    rw [hga]
    exact hab
  rcases hv _ hia b hd with ⟨j, hj, hgj⟩
  have hjlen : j < order.length := Nat.lt_trans hj hia
  have hbmem : b ∈ order := by
    rw [← hgj]
    exact getD_mem hjlen
  have hib : order.indexOf b < order.length := List.indexOf_lt_length.mpr hbmem
  have heq : order.indexOf b = j := by
    apply (List.Nodup.getElem_inj_iff hnd).mp
    rw [List.getElem_indexOf hib, ← List.getD_eq_getElem order "" hjlen, hgj]
  exact ⟨hbmem, by omega⟩

theorem transGen_indexOf_lt {g : Graph} {order : List String} (hv : validIdx g order)
    (hnd : order.Nodup) {a b : String} (h : Relation.TransGen (edgeOf g) a b)
    (ha : a ∈ order) : b ∈ order ∧ order.indexOf b < order.indexOf a := by
  induction h with
  | single hab => exact indexOf_edge_lt hv hnd hab ha
  | tail hab hbc ih =>
    rcases ih with ⟨hb, hlt⟩
    rcases indexOf_edge_lt hv hnd hbc hb with ⟨hc, hlt2⟩
    exact ⟨hc, Nat.lt_trans hlt2 hlt⟩

theorem topoSort_acyclic {g : Graph} {order : List String} (h : topoSort g = some order) :
    Acyclic g := by
  rcases topoSort_sound h with ⟨hv, hp, hnd⟩
  intro n hcyc
  rcases Relation.TransGen.head'_iff.mp hcyc with ⟨c, hc, _⟩
  have hn : n ∈ nodesOf g := by
    unfold edgeOf depsOf at hc
    cases hl : g.lookup n with
    | none => rw [hl] at hc; simp at hc
    | some ds => exact key_mem_nodes hl
  have hmem : n ∈ order := hp.mem_iff.mpr hn
  have := transGen_indexOf_lt hv hnd hcyc hmem
  omega

theorem topoSort_none_of_not_acyclic {g : Graph} (h : ¬ Acyclic g) : topoSort g = none := by
  cases ht : topoSort g with
  | none => rfl
  | some order => exact absurd (topoSort_acyclic ht) h

theorem reachAux_sound (g : Graph) :
    ∀ (fuel : Nat) (toVisit visited : List String) (x : String),
      x ∈ reachAux g fuel toVisit visited →
      x ∈ visited ∨ ∃ y ∈ toVisit, Reaches g y x := by
  intro fuel
  induction fuel with
  | zero =>
    intro tv vs x hx
    exact Or.inl hx
  | succ fuel ih =>
    intro tv vs x hx
    cases tv with
    | nil => exact Or.inl hx
    | cons n rest =>
      rw [reachAux] at hx
      by_cases hn : vs.contains n = true
      · rw [if_pos hn] at hx
        rcases ih _ _ _ hx with h | ⟨y, hy, hr⟩
        · exact Or.inl h
        · exact Or.inr ⟨y, List.mem_cons_of_mem _ hy, hr⟩
      · rw [if_neg hn] at hx
        rcases ih _ _ _ hx with h | ⟨y, hy, hr⟩
        · rcases List.mem_append.mp h with h1 | h2
          · exact Or.inl h1
          · have hxn : x = n := by simpa using h2
            exact Or.inr ⟨n, List.mem_cons_self _ _, by rw [hxn]; exact Relation.ReflTransGen.refl⟩
        · rcases List.mem_append.mp hy with h1 | h2
          · exact Or.inr ⟨y, List.mem_cons_of_mem _ h1, hr⟩
          · exact Or.inr ⟨n, List.mem_cons_self _ _, Relation.ReflTransGen.head h2 hr⟩

theorem reachAux_mono (g : Graph) :
    ∀ (fuel : Nat) (toVisit visited : List String) (x : String),
      x ∈ visited → x ∈ reachAux g fuel toVisit visited := by
  intro fuel
  induction fuel with
  | zero => intro tv vs x hx; exact hx
  | succ fuel ih =>
    intro tv vs x hx
    cases tv with
    | nil => exact hx
    | cons n rest =>
      rw [reachAux]
      by_cases hn : vs.contains n = true
      · rw [if_pos hn]; exact ih _ _ _ hx
      · rw [if_neg hn]; exact ih _ _ _ (List.mem_append_left _ hx)

theorem reachAux_nodup (g : Graph) :
    ∀ (fuel : Nat) (toVisit visited : List String),
      visited.Nodup → (reachAux g fuel toVisit visited).Nodup := by
  intro fuel
  induction fuel with
  | zero => intro tv vs h; exact h
  | succ fuel ih =>
    intro tv vs h
    cases tv with
    | nil => exact h
    | cons n rest =>
      rw [reachAux]
      by_cases hn : vs.contains n = true
      · rw [if_pos hn]; exact ih _ _ h
      · rw [if_neg hn]
        apply ih
        have hnm : n ∉ vs := fun hc => hn (contains_iff.mpr hc)
        simp [List.nodup_append, h, hnm]

theorem length_le_flatten {L : List (List String)} {l : List String} (h : l ∈ L) :
    l.length ≤ L.flatten.length := by
  induction L with
  | nil => simp at h
  | cons a t ih =>
    rcases List.mem_cons.mp h with he | ht
    · subst he; simp
    · simp only [List.flatten_cons, List.length_append]
      exact Nat.le_add_left _ _ |>.trans (Nat.add_le_add_left (ih ht) _) |>.trans (Nat.le_refl _)

theorem depsOf_length_le (g : Graph) (n : String) : (depsOf g n).length ≤ sumDeps g := by
  unfold depsOf sumDeps
  cases hl : g.lookup n with
  | none => simp
  | some ds =>
    simp only [Option.getD_some]
    exact length_le_flatten (List.mem_map_of_mem Prod.snd (lookup_mem hl))

theorem depsOf_eq_nil_of_not_node {g : Graph} {n : String} (h : n ∉ nodesOf g) :
    depsOf g n = [] := by
  unfold depsOf
  cases hl : g.lookup n with
  | none => simp
  | some ds => exact absurd (key_mem_nodes hl) h

theorem filter_contains_imp {vs : List String} {n : String} :
    ∀ x : String, (! (vs ++ [n]).contains x) = true → (! vs.contains x) = true := by
  intro x h
  cases hc : vs.contains x with
  | false => simp
  | true =>
    exfalso
    have hx : (vs ++ [n]).contains x = true :=
      contains_iff.mpr (List.mem_append_left _ (contains_iff.mp hc))
    rw [hx] at h
    simp at h

theorem reachMeasure_decr_visited {g : Graph} {n : String} {rest visited : List String} :
    reachMeasure g rest visited < reachMeasure g (n :: rest) visited := by
  unfold reachMeasure
  simp only [List.length_cons]
  omega

theorem reachMeasure_decr_new {g : Graph} {n : String} {rest visited : List String}
    (hn : visited.contains n = false) :
    reachMeasure g (rest ++ depsOf g n) (visited ++ [n]) < reachMeasure g (n :: rest) visited := by
  unfold reachMeasure
  have hsub : List.Sublist ((nodesOf g).filter (fun x => ! (visited ++ [n]).contains x))
      ((nodesOf g).filter (fun x => ! visited.contains x)) :=
    List.monotone_filter_right _ filter_contains_imp
  have hle : ((nodesOf g).filter (fun x => ! (visited ++ [n]).contains x)).length ≤
      ((nodesOf g).filter (fun x => ! visited.contains x)).length := hsub.length_le
  by_cases hmem : n ∈ nodesOf g
  · -- the freshly visited node leaves the unvisited set: strict filter decrease
    have hlt : ((nodesOf g).filter (fun x => ! (visited ++ [n]).contains x)).length <
        ((nodesOf g).filter (fun x => ! visited.contains x)).length := by
      rcases Nat.lt_or_ge ((nodesOf g).filter (fun x => ! (visited ++ [n]).contains x)).length
          ((nodesOf g).filter (fun x => ! visited.contains x)).length with h | h
      · exact h
      · exfalso
        have heq := hsub.eq_of_length_le h
        have hmem2 : n ∈ (nodesOf g).filter (fun x => ! visited.contains x) :=
          List.mem_filter.mpr ⟨hmem, by rw [hn]; rfl⟩
        rw [← heq] at hmem2
        have := (List.mem_filter.mp hmem2).2
        simp at this
    have hdep := depsOf_length_le g n
    set A := ((nodesOf g).filter (fun x => ! (visited ++ [n]).contains x)).length with hA
    set B := ((nodesOf g).filter (fun x => ! visited.contains x)).length with hB
    have hmul : A * (sumDeps g + 1) + (sumDeps g + 1) ≤ B * (sumDeps g + 1) := by
      have h1 : A + 1 ≤ B := hlt
      calc A * (sumDeps g + 1) + (sumDeps g + 1) = (A + 1) * (sumDeps g + 1) := by ring
        _ ≤ B * (sumDeps g + 1) := Nat.mul_le_mul_right _ h1
    simp only [List.length_append, List.length_cons]
    omega
  · -- the node is foreign to the graph, so it has no dependencies to push
    rw [depsOf_eq_nil_of_not_node hmem]
    have hmul : ((nodesOf g).filter (fun x => ! (visited ++ [n]).contains x)).length *
        (sumDeps g + 1) ≤
        ((nodesOf g).filter (fun x => ! visited.contains x)).length * (sumDeps g + 1) :=
      Nat.mul_le_mul_right _ hle
    simp only [List.length_append, List.length_cons, List.length_nil]
    omega

theorem reachAux_complete (g : Graph) :
    ∀ (fuel : Nat) (toVisit visited : List String),
      reachMeasure g toVisit visited ≤ fuel →
      (∀ x ∈ visited, ∀ d ∈ depsOf g x, d ∈ visited ∨ d ∈ toVisit) →
      (∀ x ∈ toVisit, x ∈ reachAux g fuel toVisit visited) ∧
      (∀ x ∈ reachAux g fuel toVisit visited, ∀ d ∈ depsOf g x,
        d ∈ reachAux g fuel toVisit visited) := by
  intro fuel
  induction fuel with
  | zero =>
    intro tv vs hm hinv
    have htv : tv = [] := by
      apply List.length_eq_zero.mp
      unfold reachMeasure at hm
      omega
    subst htv
    refine ⟨by simp, ?_⟩
    intro x hx d hd
    rcases hinv x hx d hd with h | h
    · exact h
    · simp at h
  | succ fuel ih =>
    intro tv vs hm hinv
    cases tv with
    | nil =>
      refine ⟨by simp, ?_⟩
      intro x hx d hd
      rcases hinv x hx d hd with h | h
      · exact h
      · simp at h
    | cons n rest =>
      rw [reachAux]
      by_cases hn : vs.contains n = true
      · rw [if_pos hn]
        have hm' : reachMeasure g rest vs ≤ fuel := by
          have := @reachMeasure_decr_visited g n rest vs
          omega
        have hinv' : ∀ x ∈ vs, ∀ d ∈ depsOf g x, d ∈ vs ∨ d ∈ rest := by
          intro x hx d hd
          rcases hinv x hx d hd with h | h
          · exact Or.inl h
          · rcases List.mem_cons.mp h with h1 | h2
            · subst h1; exact Or.inl (contains_iff.mp hn)
            · exact Or.inr h2
        rcases ih rest vs hm' hinv' with ⟨h1, h2⟩
        refine ⟨?_, h2⟩
        intro x hx
        rcases List.mem_cons.mp hx with he | ht
        · subst he; exact reachAux_mono g fuel rest vs _ (contains_iff.mp hn)
        · exact h1 x ht
      · rw [if_neg hn]
        have hnf : vs.contains n = false := by
          cases h : vs.contains n
          · rfl
          · exact absurd h hn
        have hm' : reachMeasure g (rest ++ depsOf g n) (vs ++ [n]) ≤ fuel := by
          have := @reachMeasure_decr_new g n rest vs hnf
          omega
        have hinv' : ∀ x ∈ vs ++ [n], ∀ d ∈ depsOf g x,
            d ∈ vs ++ [n] ∨ d ∈ rest ++ depsOf g n := by
          intro x hx d hd
          rcases List.mem_append.mp hx with h1 | h2
          · rcases hinv x h1 d hd with h | h
            · exact Or.inl (List.mem_append_left _ h)
            · rcases List.mem_cons.mp h with he | ht
              · subst he; exact Or.inl (List.mem_append_right _ (by simp))
              · exact Or.inr (List.mem_append_left _ ht)
          · have hx2 : x = n := by simpa using h2
            subst hx2
            exact Or.inr (List.mem_append_right _ hd)
        rcases ih _ _ hm' hinv' with ⟨h1, h2⟩
        refine ⟨?_, h2⟩
        intro x hx
        rcases List.mem_cons.mp hx with he | ht
        · subst he
          exact reachAux_mono g fuel _ _ _ (List.mem_append_right _ (by simp))
        · exact h1 x (List.mem_append_left _ ht)

theorem reachableFrom_spec (g : Graph) (t : String) :
    (∀ x, x ∈ reachableFrom g t ↔ Reaches g t x) ∧ (reachableFrom g t).Nodup := by
  have hcc := reachAux_complete g (reachMeasure g [t] []) [t] [] (Nat.le_refl _) (by simp)
  rcases hcc with ⟨h1, h2⟩
  refine ⟨fun x => ⟨?_, ?_⟩, reachAux_nodup g _ _ _ (by simp)⟩
  · intro hx
    rcases reachAux_sound g _ _ _ x hx with h | ⟨y, hy, hr⟩
    · simp at h
    · have hyt : y = t := by simpa using hy
      subst hyt
      exact hr
  · intro hr
    induction hr with
    | refl => exact h1 t (by simp)
    | tail hab hbc ih => exact h2 _ ih _ hbc

theorem full_graph_lookup (cfgs : ImageConfigsMap) (x : String) :
    (full_graph cfgs).lookup x = (cfgs.lookup x).map (fun conf => (conf.map Prod.snd).dedup) := by
  induction cfgs with
  | nil => rfl
  | cons p t ih =>
    rcases p with ⟨a, b⟩
    cases hxa : (x == a) with
    | true => simp [full_graph, List.lookup, hxa]
    | false =>
      simp only [full_graph, List.map_cons, List.lookup, hxa]
      simpa [full_graph] using ih

theorem subgraphOf_lookup {g : Graph} :
    ∀ {visited : List String}, visited.Nodup → ∀ x,
      (subgraphOf g visited).lookup x =
        if visited.contains x then g.lookup x else none := by
  intro visited
  induction visited with
  | nil => intro _ x; simp [subgraphOf, List.lookup]
  | cons n rest ih =>
    intro hnd x
    have hnd' : rest.Nodup := (List.nodup_cons.mp hnd).2
    have hnotin : n ∉ rest := (List.nodup_cons.mp hnd).1
    have hihx := ih hnd' x
    cases hln : g.lookup n with
    | none =>
      have hcons : subgraphOf g (n :: rest) = subgraphOf g rest := by
        simp [subgraphOf, List.filterMap_cons, hln]
      rw [hcons, hihx]
      by_cases hx : x = n
      · subst hx
        have h1 : rest.contains x = false := by
          cases hc : rest.contains x
          · rfl
          · exact absurd (contains_iff.mp hc) hnotin
        simp [h1, List.contains_cons, hln]
      · simp [List.contains_cons, hx]
    | some ds =>
      have hcons : subgraphOf g (n :: rest) = (n, ds) :: subgraphOf g rest := by
        simp [subgraphOf, List.filterMap_cons, hln]
      rw [hcons]
      by_cases hx : x = n
      · subst hx
        simp [List.lookup, List.contains_cons, hln]
      · have hbeq : (x == n) = false := by simp [hx]
        simp only [List.lookup, hbeq]
        rw [hihx]
        simp [List.contains_cons, hx]

theorem subgraph_edge_sub {g : Graph} {visited : List String} (hnd : visited.Nodup)
    {a b : String} (h : edgeOf (subgraphOf g visited) a b) : edgeOf g a b := by
  unfold edgeOf depsOf at h ⊢
  rw [subgraphOf_lookup hnd] at h
  by_cases hv : visited.contains a = true
  · rw [if_pos hv] at h
    exact h
  · rw [if_neg hv] at h
    simp at h

theorem acyclic_subgraph {g : Graph} {visited : List String} (hnd : visited.Nodup)
    (hacy : Acyclic g) : Acyclic (subgraphOf g visited) :=
  fun n hc => hacy n (hc.mono (fun _ _ h => subgraph_edge_sub hnd h))

theorem validIdx_subgraph_to_full {g : Graph} {visited order : List String}
    (hnd : visited.Nodup) (horder : validIdx (subgraphOf g visited) order)
    (hclosed : ∀ x ∈ order, x ∈ visited) :
    validIdx g order := by
  intro i hi d hd
  apply horder i hi
  have hx : order.getD i "" ∈ visited := hclosed _ (getD_mem hi)
  unfold depsOf
  rw [subgraphOf_lookup hnd, if_pos (contains_iff.mpr hx)]
  exact hd

theorem subgraph_nodes_iff {g : Graph} {t : String} {ds0 : List String}
    (ht : g.lookup t = some ds0) (x : String) :
    x ∈ nodesOf (subgraphOf g (reachableFrom g t)) ↔ x ∈ reachableFrom g t := by
  rcases reachableFrom_spec g t with ⟨hmem, hndv⟩
  have hclosure : ∀ y ∈ reachableFrom g t, ∀ d ∈ depsOf g y, d ∈ reachableFrom g t :=
    fun y hy d hd => (hmem d).mpr (Relation.ReflTransGen.tail ((hmem y).mp hy) hd)
  constructor
  · intro hx
    rcases List.mem_append.mp (List.mem_dedup.mp hx) with h1 | h2
    · rcases List.mem_map.mp h1 with ⟨p, hp, hfst⟩
      rcases List.mem_filterMap.mp hp with ⟨node, hnode, hf⟩
      cases hl : g.lookup node with
      | none => rw [hl] at hf; simp at hf
      | some ds =>
        rw [hl] at hf
        have hpe : p = (node, ds) := by simpa using hf.symm
        rw [hpe] at hfst
        rw [← hfst]
        exact hnode
    · rcases List.mem_flatten.mp h2 with ⟨l, hl, hxl⟩
      rcases List.mem_map.mp hl with ⟨p, hp, hsnd⟩
      rcases List.mem_filterMap.mp hp with ⟨node, hnode, hf⟩
      cases hlo : g.lookup node with
      | none => rw [hlo] at hf; simp at hf
      | some ds =>
        rw [hlo] at hf
        have hpe : p = (node, ds) := by simpa using hf.symm
        apply hclosure node hnode x
        unfold depsOf
        rw [hlo, Option.getD_some, ← show p.2 = ds from by rw [hpe]]
        rw [hsnd]
        exact hxl
  · intro hx
    cases hlx : g.lookup x with
    | some ds =>
      have hp : (x, ds) ∈ subgraphOf g (reachableFrom g t) :=
        List.mem_filterMap.mpr ⟨x, hx, by rw [hlx]; rfl⟩
      exact List.mem_dedup.mpr (List.mem_append_left _ (List.mem_map_of_mem Prod.fst hp))
    | none =>
      have hr : Reaches g t x := (hmem x).mp hx
      rcases Relation.ReflTransGen.cases_tail hr with heq | ⟨c, hrc, hedge⟩
      · exfalso
        rw [heq] at hlx
        rw [ht] at hlx
        exact absurd hlx (by simp)
      · have hcv : c ∈ reachableFrom g t := (hmem c).mpr hrc
        have hdecl : ∃ ds, g.lookup c = some ds := by
          unfold edgeOf depsOf at hedge
          cases hlc : g.lookup c with
          | none => rw [hlc] at hedge; simp at hedge
          | some ds => exact ⟨ds, rfl⟩
        rcases hdecl with ⟨ds, hlc⟩
        have hp : (c, ds) ∈ subgraphOf g (reachableFrom g t) :=
          List.mem_filterMap.mpr ⟨c, hcv, by rw [hlc]; rfl⟩
        have hxds : x ∈ ds := by
          unfold edgeOf depsOf at hedge
          rw [hlc] at hedge
          simpa using hedge
        have hfl : x ∈ ((subgraphOf g (reachableFrom g t)).map Prod.snd).flatten :=
          List.mem_flatten.mpr ⟨ds, List.mem_map_of_mem Prod.snd hp, hxds⟩
        exact List.mem_dedup.mpr (List.mem_append_right _ hfl)

theorem get_dependency_subgraph_char {cfgs : ImageConfigsMap} {target : String}
    {order : List String}
    (h : get_dependency_subgraph target cfgs = some order)
    (ht : (cfgs.lookup target).isSome) :
    (∀ x, x ∈ order ↔ Reaches (full_graph cfgs) target x) ∧ order.Nodup ∧
      validIdx (full_graph cfgs) order := by
  rcases Option.isSome_iff_exists.mp ht with ⟨conf, hc⟩
  have hfg : (full_graph cfgs).lookup target = some ((conf.map Prod.snd).dedup) := by
    rw [full_graph_lookup, hc]
    rfl
  have hnone : (cfgs.lookup target).isNone = false := by rw [hc]; rfl
  rw [get_dependency_subgraph, if_neg (by rw [hnone]; simp)] at h
  rcases topoSort_sound h with ⟨hv, hperm, hnd⟩
  rcases reachableFrom_spec (full_graph cfgs) target with ⟨hmem, hndv⟩
  have horder_mem : ∀ x, x ∈ order ↔ Reaches (full_graph cfgs) target x := by
    intro x
    rw [hperm.mem_iff, subgraph_nodes_iff hfg x, hmem x]
  refine ⟨horder_mem, hnd, ?_⟩
  apply validIdx_subgraph_to_full hndv hv
  intro x hx
  exact (hmem x).mpr ((horder_mem x).mp hx)

/-- C3: for any configs map and target, `get_dependency_subgraph` returns `[]`
for an unknown target; for a known target (and in particular whenever the graph
is acyclic, in which case it cannot fail) any returned order consists exactly of
the target plus its direct and transitive dependencies, without duplicates, with
every dependency placed before its dependents; on the graph
`{a → b, b → c, c → ∅, d → ∅}` the closure of `a` is `[c, b, a]`. -/
theorem spec_C3 (cfgs : ImageConfigsMap) (target : String) :
    ((cfgs.lookup target).isNone → get_dependency_subgraph target cfgs = some []) ∧
    (Acyclic (full_graph cfgs) → (get_dependency_subgraph target cfgs).isSome) ∧
    (∀ order, get_dependency_subgraph target cfgs = some order →
      (cfgs.lookup target).isSome →
      ((∀ x, x ∈ order ↔ Reaches (full_graph cfgs) target x) ∧ order.Nodup ∧
        validIdx (full_graph cfgs) order)) ∧
    get_dependency_subgraph "a" exampleGraphC3 = some ["c", "b", "a"] := by
  refine ⟨?_, ?_, ?_, by decide⟩
  · intro h
    simp [get_dependency_subgraph, h]
  · intro hacy
    by_cases h : (cfgs.lookup target).isNone = true
    · simp [get_dependency_subgraph, h]
    · have hfalse : (cfgs.lookup target).isNone = false := by
        cases hh : (cfgs.lookup target).isNone
        · rfl
        · exact absurd hh h
      rw [get_dependency_subgraph, if_neg (by rw [hfalse]; simp)]
      exact topoSort_acyclic_isSome (acyclic_subgraph (reachableFrom_spec _ _).2 hacy)
  · intro order h ht
    exact get_dependency_subgraph_char h ht

theorem spec_C3_witness :
    get_dependency_subgraph "z" exampleGraphC3 = some [] :=
  (spec_C3 exampleGraphC3 "z").1 (by decide)

/-- C10: if a declared image `img` references an undeclared name `u`, then any
processing order produced by `get_dependency_subgraph` for a target that reaches
`img` (and likewise the full-graph order computed via `topoSort` in `main`)
contains `u`, and `u` is placed before every image that depends on it. -/
theorem spec_C10 (cfgs : ImageConfigsMap) (t u img : String)
    (himg : (cfgs.lookup img).isSome)
    (hu : cfgs.lookup u = none)
    (hdep : u ∈ depsOf (full_graph cfgs) img) :
    (∀ order, get_dependency_subgraph t cfgs = some order →
      Reaches (full_graph cfgs) t img →
      u ∈ order ∧ ∀ i, i < order.length → u ∈ depsOf (full_graph cfgs) (order.getD i "") →
        ∃ j, j < i ∧ order.getD j "" = u) ∧
    (∀ order, topoSort (full_graph cfgs) = some order →
      u ∈ order ∧ ∀ i, i < order.length → u ∈ depsOf (full_graph cfgs) (order.getD i "") →
        ∃ j, j < i ∧ order.getD j "" = u) := by
  constructor
  · intro order h hreach
    have ht : (cfgs.lookup t).isSome := by
      rcases Relation.ReflTransGen.cases_head hreach with heq | ⟨c, hc, _⟩
      · rw [heq]
        exact himg
      · unfold edgeOf depsOf at hc
        cases hl : (full_graph cfgs).lookup t with
        | none => rw [hl] at hc; simp at hc
        | some ds =>
          rw [full_graph_lookup] at hl
          cases hcl : cfgs.lookup t with
          | none => rw [hcl] at hl; simp at hl
          | some conf => simp [hcl]
    rcases get_dependency_subgraph_char h ht with ⟨hmem, hnd, hv⟩
    exact ⟨(hmem u).mpr (Relation.ReflTransGen.tail hreach hdep),
      fun i hi hd => hv i hi u hd⟩
  · intro order h
    rcases topoSort_sound h with ⟨hv, hperm, hnd⟩
    exact ⟨hperm.mem_iff.mpr (deps_sub_nodes hdep), fun i hi hd => hv i hi u hd⟩

theorem spec_C10_witness :
    "u" ∈ (["u", "a"] : List String) ∧
      ∀ i, i < (["u", "a"] : List String).length →
        "u" ∈ depsOf (full_graph exampleGraphC10) ((["u", "a"] : List String).getD i "") →
        ∃ j, j < i ∧ (["u", "a"] : List String).getD j "" = "u" :=
  (spec_C10 exampleGraphC10 "a" "u" "a" (by decide) (by decide) (by decide)).1
    ["u", "a"] (by decide) Relation.ReflTransGen.refl

/-- C4: when the local image inspect succeeds, the orchestration step issues
only that inspect — no remote manifest inspect, no pull, no build, no push —
and the image terminates in the Skipped state. -/
theorem spec_C4 (d : DockerEnv) (h : d.localExists = true) :
    manage_docker_image d = ⟨[DockerCmd.inspect], false, Except.ok TermState.Skipped⟩ ∧
    DockerCmd.manifestInspect ∉ (manage_docker_image d).trace ∧
    DockerCmd.pull ∉ (manage_docker_image d).trace ∧
    DockerCmd.build ∉ (manage_docker_image d).trace ∧
    DockerCmd.push ∉ (manage_docker_image d).trace ∧
    (manage_docker_image d).result = Except.ok TermState.Skipped := by
  have he : manage_docker_image d = ⟨[DockerCmd.inspect], false, Except.ok TermState.Skipped⟩ := by
    unfold manage_docker_image
    rw [if_pos h]
  refine ⟨he, ?_, ?_, ?_, ?_, ?_⟩ <;> rw [he] <;> decide

theorem spec_C4_witness :
    manage_docker_image ⟨true, false, true, 0, true, 0, true⟩ =
      ⟨[DockerCmd.inspect], false, Except.ok TermState.Skipped⟩ :=
  (spec_C4 ⟨true, false, true, 0, true, 0, true⟩ rfl).1

theorem process_image_next_or_halt (env : Env) (img : String)
    (conf : List (String × String)) (tags : List (String × String)) (pt : Bool)
    (tgt : Option String) (bytes : List Nat) (pairs : List (String × String))
    (hfile : env.dockerfile img = some bytes)
    (hdeps : resolveDeps img conf tags = Except.ok pairs) :
    process_image env img conf tags pt tgt =
      match (manage_docker_image (env.docker (tagFor env img bytes pairs))).result with
      | Except.error code =>
        StepResult.halt (RunOutcome.fatal code
          (FatalReason.dockerError (tagFor env img bytes pairs)))
      | Except.ok _ =>
        if pt then
          if tgt = some img then
            StepResult.halt (RunOutcome.printedTag (tagFor env img bytes pairs))
          else StepResult.next (dictInsert img (tagFor env img bytes pairs) tags)
            (manage_docker_image (env.docker (tagFor env img bytes pairs)))
        else StepResult.next (dictInsert img (tagFor env img bytes pairs) tags)
          (manage_docker_image (env.docker (tagFor env img bytes pairs))) := by
  simp only [process_image, hfile, hdeps, tagFor]

theorem runImages_cons_halt {env : Env} {cfgs : ImageConfigsMap} {img : String}
    {conf : ImageConfig} {tags : List (String × String)}
    {log : List (String × ManageOutcome)} {rest : List String} {pt : Bool}
    {tgt : Option String} {o : RunOutcome}
    (hdecl : cfgs.lookup img = some conf)
    (hstep : process_image env img conf tags pt tgt = StepResult.halt o) :
    runImages env cfgs pt tgt (img :: rest) tags log = (log.reverse, o) := by
  simp only [runImages, hdecl, hstep]

theorem runImages_cons_next {env : Env} {cfgs : ImageConfigsMap} {img : String}
    {conf : ImageConfig} {tags tags2 : List (String × String)}
    {log : List (String × ManageOutcome)} {rest : List String} {pt : Bool}
    {tgt : Option String} {m : ManageOutcome}
    (hdecl : cfgs.lookup img = some conf)
    (hstep : process_image env img conf tags pt tgt = StepResult.next tags2 m) :
    runImages env cfgs pt tgt (img :: rest) tags log =
      runImages env cfgs pt tgt rest tags2 ((img, m) :: log) := by
  simp only [runImages, hdecl, hstep]

/-- C5: an image absent locally and remotely whose build succeeds and whose
push fails still reaches BuiltLocalOnly with the push warning emitted; its
processing step does not exit, and the driver loop continues with the
remaining images. -/
theorem spec_C5 (d : DockerEnv) (h1 : d.localExists = false) (h2 : d.remoteExists = false)
    (h3 : d.buildSucceeds = true) (h4 : d.pushSucceeds = false) :
    (manage_docker_image d =
      ⟨[DockerCmd.inspect, DockerCmd.manifestInspect, DockerCmd.build, DockerCmd.push], true,
        Except.ok TermState.BuiltLocalOnly⟩) ∧
    (manage_docker_image d).pushWarning = true ∧
    (manage_docker_image d).result = Except.ok TermState.BuiltLocalOnly ∧
    (∀ (env : Env) (cfgs : ImageConfigsMap) (img : String) (conf : ImageConfig)
        (bytes : List Nat) (pairs tags : List (String × String))
        (log : List (String × ManageOutcome)) (rest : List String),
      cfgs.lookup img = some conf →
      env.dockerfile img = some bytes →
      resolveDeps img conf tags = Except.ok pairs →
      env.docker (tagFor env img bytes pairs) = d →
      process_image env img conf tags false none =
        StepResult.next (dictInsert img (tagFor env img bytes pairs) tags)
          (manage_docker_image d) ∧
      runImages env cfgs false none (img :: rest) tags log =
        runImages env cfgs false none rest (dictInsert img (tagFor env img bytes pairs) tags)
          ((img, manage_docker_image d) :: log)) := by
  have he : manage_docker_image d =
      ⟨[DockerCmd.inspect, DockerCmd.manifestInspect, DockerCmd.build, DockerCmd.push], true,
        Except.ok TermState.BuiltLocalOnly⟩ := by
    unfold manage_docker_image
    rw [if_neg (by rw [h1]; simp), if_neg (by rw [h2]; simp), if_pos h3, if_neg (by rw [h4]; simp)]
  refine ⟨he, by rw [he], by rw [he], ?_⟩
  intro env cfgs img conf bytes pairs tags log rest hconf hfile hdeps hdock
  have hchar := process_image_next_or_halt env img conf tags false none bytes pairs hfile hdeps
  rw [hdock, he] at hchar
  have hproc : process_image env img conf tags false none =
      StepResult.next (dictInsert img (tagFor env img bytes pairs) tags)
        (manage_docker_image d) := by
    rw [hchar, he]
    simp
  exact ⟨hproc, runImages_cons_next hconf hproc⟩

theorem spec_C5_witness :
    (manage_docker_image exampleDockerC5).pushWarning = true ∧
    (manage_docker_image exampleDockerC5).result = Except.ok TermState.BuiltLocalOnly ∧
    runImages exampleEnvC5 exampleCfgsC9 false none ["a"] [] [] =
      runImages exampleEnvC5 exampleCfgsC9 false none []
        (dictInsert "a" (get_image_tag "" "a" (calculate_sha256 [] (sortStrings []))) [])
        [("a", manage_docker_image exampleDockerC5)] := by
  have h := spec_C5 exampleDockerC5 rfl rfl rfl rfl
  refine ⟨h.2.1, h.2.2.1, ?_⟩
  exact (h.2.2.2 exampleEnvC5 exampleCfgsC9 "a" [] [] [] [] [] [] rfl rfl rfl rfl).2

/-- C6: for an image absent locally whose manifest is present remotely,
exactly one pull and zero build/push calls are issued; a successful pull ends
in the Pulled state, and a failed pull exits fatally with the tool's code (1
when the tool reports 0), aborting the driver loop at that image. -/
theorem spec_C6 (d : DockerEnv) (h1 : d.localExists = false) (h2 : d.remoteExists = true) :
    ((manage_docker_image d).trace.count DockerCmd.pull = 1 ∧
      (manage_docker_image d).trace.count DockerCmd.build = 0 ∧
      (manage_docker_image d).trace.count DockerCmd.push = 0) ∧
    (d.pullSucceeds = true → (manage_docker_image d).result = Except.ok TermState.Pulled) ∧
    (d.pullSucceeds = false →
      (manage_docker_image d).result = Except.error (pyExit d.pullFailCode) ∧
      (d.pullFailCode ≠ 0 → pyExit d.pullFailCode = d.pullFailCode) ∧
      (d.pullFailCode = 0 → pyExit d.pullFailCode = 1) ∧
      (∀ (env : Env) (cfgs : ImageConfigsMap) (img : String) (conf : ImageConfig)
          (bytes : List Nat) (pairs tags : List (String × String))
          (log : List (String × ManageOutcome)) (rest : List String),
        cfgs.lookup img = some conf →
        env.dockerfile img = some bytes →
        resolveDeps img conf tags = Except.ok pairs →
        env.docker (tagFor env img bytes pairs) = d →
        runImages env cfgs false none (img :: rest) tags log =
          (log.reverse, RunOutcome.fatal (pyExit d.pullFailCode)
            (FatalReason.dockerError (tagFor env img bytes pairs))))) := by
  have hbase : manage_docker_image d =
      if d.pullSucceeds then
        ⟨[DockerCmd.inspect, DockerCmd.manifestInspect, DockerCmd.pull], false,
          Except.ok TermState.Pulled⟩
      else
        ⟨[DockerCmd.inspect, DockerCmd.manifestInspect, DockerCmd.pull], false,
          Except.error (pyExit d.pullFailCode)⟩ := by
    unfold manage_docker_image
    rw [if_neg (by rw [h1]; simp), if_pos h2]
  refine ⟨?_, ?_, ?_⟩
  · cases hp : d.pullSucceeds
    · rw [hbase, if_neg (by rw [hp]; simp)]
      exact ⟨rfl, rfl, rfl⟩
    · rw [hbase, if_pos hp]
      exact ⟨rfl, rfl, rfl⟩
  · intro hp
    rw [hbase, if_pos hp]
  · intro hp
    have he : manage_docker_image d =
        ⟨[DockerCmd.inspect, DockerCmd.manifestInspect, DockerCmd.pull], false,
          Except.error (pyExit d.pullFailCode)⟩ := by
      rw [hbase, if_neg (by rw [hp]; simp)]
    refine ⟨by rw [he], fun h0 => by unfold pyExit; rw [if_pos h0],
      fun h0 => by unfold pyExit; rw [h0]; simp, ?_⟩
    intro env cfgs img conf bytes pairs tags log rest hconf hfile hdeps hdock
    have hchar := process_image_next_or_halt env img conf tags false none bytes pairs hfile hdeps
    rw [hdock, he] at hchar
    exact runImages_cons_halt hconf hchar

theorem spec_C6_witness :
    ((manage_docker_image exampleDockerC6).trace.count DockerCmd.pull = 1 ∧
      (manage_docker_image exampleDockerC6).trace.count DockerCmd.build = 0 ∧
      (manage_docker_image exampleDockerC6).trace.count DockerCmd.push = 0) ∧
    (manage_docker_image exampleDockerC6).result = Except.error (pyExit 7) ∧
    runImages exampleEnvC6 exampleCfgsC9 false none ["a"] [] [] =
      ([], RunOutcome.fatal (pyExit 7)
        (FatalReason.dockerError (get_image_tag "" "a" (calculate_sha256 [] (sortStrings []))))) := by
  have h := spec_C6 exampleDockerC6 rfl rfl
  refine ⟨h.1, (h.2.2 rfl).1, ?_⟩
  exact (h.2.2 rfl).2.2.2 exampleEnvC6 exampleCfgsC9 "a" [] [] [] [] [] [] rfl rfl rfl rfl

/-- C2: for every acyclic dependency graph the full-graph order exists and
places every dependency at a smaller index than each of its dependents; when
no such order exists because of a cycle, the run fails fatally with the cycle
error before any image is processed. -/
theorem spec_C2 (cfgs : ImageConfigsMap) :
    (Acyclic (full_graph cfgs) →
      ∃ order, topoSort (full_graph cfgs) = some order ∧ validIdx (full_graph cfgs) order) ∧
    (¬ Acyclic (full_graph cfgs) →
      ∀ (repo : String) (files : String → Option (List Nat)) (docker : String → DockerEnv),
        run_after_config repo cfgs files docker none false =
          ⟨[], RunOutcome.fatal 1 FatalReason.cycle⟩) := by
  constructor
  · intro hacy
    rcases Option.isSome_iff_exists.mp (topoSort_acyclic_isSome hacy) with ⟨order, ho⟩
    exact ⟨order, ho, (topoSort_sound ho).1⟩
  · intro hncy repo files docker
    have hnone := topoSort_none_of_not_acyclic hncy
    simp only [run_after_config, hnone]

theorem spec_C2_witness :
    (∃ order, topoSort (full_graph exampleCfgsC2Acyclic) = some order ∧
      validIdx (full_graph exampleCfgsC2Acyclic) order) ∧
    run_after_config "" exampleCfgsC2Cycle exampleFiles exampleDockerLocal none false =
      ⟨[], RunOutcome.fatal 1 FatalReason.cycle⟩ := by
  constructor
  · exact (spec_C2 exampleCfgsC2Acyclic).1 (topoSort_acyclic
      (show topoSort (full_graph exampleCfgsC2Acyclic) = some ["b", "a"] by decide))
  · have hcyc : ¬ Acyclic (full_graph exampleCfgsC2Cycle) := by
      intro h
      apply h "a"
      exact Relation.TransGen.head
        (show ("b" : String) ∈ depsOf (full_graph exampleCfgsC2Cycle) "a" by decide)
        (Relation.TransGen.single
          (show ("a" : String) ∈ depsOf (full_graph exampleCfgsC2Cycle) "b" by decide))
    exact (spec_C2 exampleCfgsC2Cycle).2 hcyc "" exampleFiles exampleDockerLocal

/-- C9 (amended): a configuration file that is present but fails to decode is
a fatal startup error (exit code 1) before any image is processed; an absent
configuration file is not an error — the run proceeds with an empty registry
prefix. -/
theorem spec_C9 :
    (∀ (cfgs : ImageConfigsMap) (files : String → Option (List Nat))
        (docker : String → DockerEnv) (target : Option String) (printTag : Bool),
      main ConfigFile.invalid cfgs files docker target printTag =
        ⟨[], RunOutcome.fatal 1 FatalReason.configDecode⟩) ∧
    load_config ConfigFile.absent = Except.ok "" :=
  ⟨fun _ _ _ _ _ => rfl, rfl⟩

/-- C9 counterexample: the claim says an absent configuration file terminates
the program fatally at startup; instead `load_config` succeeds with an empty
registry and the run goes on to process an image and finish successfully. -/
theorem spec_C9_counterexample :
    load_config ConfigFile.absent = Except.ok "" ∧
    (main ConfigFile.absent exampleCfgsC9 exampleFiles exampleDockerLocal none false).log.length
      = 1 ∧
    (main ConfigFile.absent exampleCfgsC9 exampleFiles exampleDockerLocal none false).outcome =
      RunOutcome.success
        (dictInsert "a" (get_image_tag "" "a" (calculate_sha256 [] (sortStrings []))) []) := by
  refine ⟨rfl, ?_, ?_⟩ <;> rfl

theorem dictInsert_lookup_self (k v : String) (m : List (String × String)) :
    (dictInsert k v m).lookup k = some v := by
  simp [dictInsert, List.lookup]

theorem lookup_filter_ne {m : List (String × String)} {k x : String} (h : x ≠ k) :
    (m.filter (fun p => p.1 != k)).lookup x = m.lookup x := by
  induction m with
  | nil => rfl
  | cons p t ih =>
    rcases p with ⟨a, b⟩
    by_cases hak : a = k
    · subst hak
      have hdrop : ((a, b).1 != a) = false := by simp
      rw [List.filter_cons, hdrop]
      simp only [Bool.false_eq_true, if_false]
      rw [ih]
      have hxa : (x == a) = false := by simp [h]
      simp [List.lookup, hxa]
    · have hkeep : ((a, b).1 != k) = true := by simp [hak]
      rw [List.filter_cons, hkeep]
      simp only [if_true]
      cases hxa : (x == a) with
      | true => simp [List.lookup, hxa]
      | false =>
        simp only [List.lookup, hxa]
        exact ih

theorem dictInsert_lookup_ne {m : List (String × String)} {k v x : String} (h : x ≠ k) :
    (dictInsert k v m).lookup x = m.lookup x := by
  have hbeq : (x == k) = false := by simp [h]
  simp only [dictInsert, List.lookup, hbeq]
  exact lookup_filter_ne h

theorem dictInsert_isSome {m : List (String × String)} {k v x : String}
    (h : (m.lookup x).isSome = true) :
    ((dictInsert k v m).lookup x).isSome = true := by
  by_cases hx : x = k
  · subst hx
    rw [dictInsert_lookup_self]
    rfl
  · rw [dictInsert_lookup_ne hx]
    exact h

theorem resolveDeps_ok {img : String} {deps : List (String × String)}
    {tags : List (String × String)}
    (h : ∀ p ∈ deps, (tags.lookup p.2).isSome = true) :
    ∃ pairs, resolveDeps img deps tags = Except.ok pairs := by
  induction deps with
  | nil => exact ⟨[], rfl⟩
  | cons p rest ih =>
    rcases p with ⟨a, dep⟩
    have hd := h (a, dep) (List.mem_cons_self _ _)
    rcases Option.isSome_iff_exists.mp hd with ⟨tg, htg⟩
    rcases ih (fun q hq => h q (List.mem_cons_of_mem _ hq)) with ⟨l, hl⟩
    exact ⟨(a, tg) :: l, by simp [resolveDeps, htg, hl]⟩

theorem lookup_isSome_of_mem {l : List (String × ImageConfig)} {p : String × ImageConfig}
    (h : p ∈ l) : (l.lookup p.1).isSome = true := by
  induction l with
  | nil => simp at h
  | cons q t ih =>
    rcases q with ⟨a, b⟩
    rcases List.mem_cons.mp h with he | ht
    · subst he
      simp [List.lookup]
    · cases hbeq : (p.1 == a) with
      | true => simp [List.lookup, hbeq]
      | false =>
        simp only [List.lookup, hbeq]
        exact ih ht

theorem nodes_declared {cfgs : ImageConfigsMap}
    (hdecl : ∀ p ∈ cfgs, ∀ q ∈ p.2, (cfgs.lookup q.2).isSome = true)
    {x : String} (hx : x ∈ nodesOf (full_graph cfgs)) :
    (cfgs.lookup x).isSome = true := by
  rcases List.mem_append.mp (List.mem_dedup.mp hx) with h1 | h2
  · rcases List.mem_map.mp h1 with ⟨p, hp, hfst⟩
    rcases List.mem_map.mp hp with ⟨q, hq, hqe⟩
    have hx1 : q.1 = x := by rw [← hfst, ← hqe]
    rw [← hx1]
    exact lookup_isSome_of_mem hq
  · rcases List.mem_flatten.mp h2 with ⟨ds, hds, hxds⟩
    rcases List.mem_map.mp hds with ⟨p, hp, hsnd⟩
    rcases List.mem_map.mp hp with ⟨q, hq, hqe⟩
    have hxq : x ∈ (q.2.map Prod.snd).dedup := by
      have hp2 : p.2 = (q.2.map Prod.snd).dedup := by rw [← hqe]
      rw [← hp2, hsnd]
      exact hxds
    rcases List.mem_map.mp (List.mem_dedup.mp hxq) with ⟨r, hr, hre⟩
    rw [← hre]
    exact hdecl q hq r hr

theorem runImages_no_depUnresolved {cfgs : ImageConfigsMap} {env : Env} {pt : Bool}
    {tgt : Option String} {order : List String}
    (hvalid : validIdx (full_graph cfgs) order)
    (hnodes : ∀ x ∈ order, x ∈ nodesOf (full_graph cfgs))
    (hdecl : ∀ p ∈ cfgs, ∀ q ∈ p.2, (cfgs.lookup q.2).isSome = true) :
    ∀ (rest pre : List String) (tags : List (String × String))
      (log : List (String × ManageOutcome)),
      order = pre ++ rest →
      (∀ x ∈ pre, (tags.lookup x).isSome = true) →
      ∀ code img dep, (runImages env cfgs pt tgt rest tags log).2 ≠
        RunOutcome.fatal code (FatalReason.depUnresolved img dep) := by
  intro rest
  induction rest with
  | nil =>
    intro pre tags log hsplit hpre code img dep
    simp [runImages]
  | cons hd tl ih =>
    intro pre tags log hsplit hpre code img dep
    have hdmem : hd ∈ order := by
      rw [hsplit]
      exact List.mem_append_right _ (List.mem_cons_self _ _)
    have hddecl : (cfgs.lookup hd).isSome = true := nodes_declared hdecl (hnodes _ hdmem)
    rcases Option.isSome_iff_exists.mp hddecl with ⟨conf, hconf⟩
    have hdeps_tags : ∀ p ∈ conf, (tags.lookup p.2).isSome = true := by
      intro p hp
      have hdep2 : p.2 ∈ depsOf (full_graph cfgs) hd := by
        unfold depsOf
        rw [full_graph_lookup, hconf]
        simp only [Option.map_some', Option.getD_some]
        exact List.mem_dedup.mpr (List.mem_map_of_mem Prod.snd hp)
      have hi : pre.length < order.length := by
        rw [hsplit]
        simp
      have hgot : order.getD pre.length "" = hd := by
        rw [hsplit, getD_append_right (Nat.le_refl _) (by simp)]
        simp
      have hdep3 : p.2 ∈ depsOf (full_graph cfgs) (order.getD pre.length "") := by
        rw [hgot]
        exact hdep2
      rcases hvalid pre.length hi p.2 hdep3 with ⟨j, hj, hgj⟩
      have hmem : p.2 ∈ pre := by
        rw [hsplit, getD_append_left hj] at hgj
        rw [← hgj]
        exact getD_mem hj
      exact hpre _ hmem
    rcases resolveDeps_ok hdeps_tags with ⟨pairs, hpairs⟩
    cases hfile : env.dockerfile hd with
    | none =>
      have hproc : process_image env hd conf tags pt tgt =
          StepResult.halt (RunOutcome.fatal 1 (FatalReason.dockerfileMissing hd)) := by
        simp [process_image, hfile]
      rw [runImages_cons_halt hconf hproc]
      simp
    | some bytes =>
      have hchar := process_image_next_or_halt env hd conf tags pt tgt bytes pairs hfile hpairs
      cases hres : (manage_docker_image (env.docker (tagFor env hd bytes pairs))).result with
      | error code2 =>
        rw [hres] at hchar
        rw [runImages_cons_halt hconf hchar]
        simp
      | ok st =>
        rw [hres] at hchar
        have hnextcase : ∀ (tags2 : List (String × String)) (m : ManageOutcome),
            process_image env hd conf tags pt tgt = StepResult.next tags2 m →
            tags2 = dictInsert hd (tagFor env hd bytes pairs) tags →
            (runImages env cfgs pt tgt (hd :: tl) tags log).2 ≠
              RunOutcome.fatal code (FatalReason.depUnresolved img dep) := by
          intro tags2 m hproc htags2
          rw [runImages_cons_next hconf hproc]
          apply ih (pre ++ [hd]) tags2 ((hd, m) :: log)
          · rw [hsplit, List.append_assoc]
            rfl
          · intro x hx
            rcases List.mem_append.mp hx with h1 | h2
            · rw [htags2]
              exact dictInsert_isSome (hpre _ h1)
            · have hxhd : x = hd := by simpa using h2
              subst hxhd
              rw [htags2, dictInsert_lookup_self]
              rfl
        by_cases hpt : pt = true
        · subst hpt
          by_cases htgt : tgt = some hd
          · rw [if_pos rfl, if_pos htgt] at hchar
            rw [runImages_cons_halt hconf hchar]
            simp
          · rw [if_pos rfl, if_neg htgt] at hchar
            exact hnextcase _ _ hchar rfl
        · have hptf : pt = false := by
            cases pt
            · rfl
            · exact absurd rfl hpt
          subst hptf
          rw [if_neg (by simp)] at hchar
          exact hnextcase _ _ hchar rfl

/-- C7: if every dependency name referenced by any declared image is itself a
declared image and the driver runs over the order computed by the topological
sort, the DependencyUnresolved branch of `process_image` is unreachable: the
run never ends with that error, because each dependency's tag is recorded in
`generated_tags` when the dependency is processed earlier in the order. -/
theorem spec_C7 (cfgs : ImageConfigsMap) (env : Env) (pt : Bool) (tgt : Option String)
    (order : List String)
    (horder : topoSort (full_graph cfgs) = some order)
    (hdecl : ∀ p ∈ cfgs, ∀ q ∈ p.2, (cfgs.lookup q.2).isSome = true) :
    ∀ code img dep, (runImages env cfgs pt tgt order [] []).2 ≠
      RunOutcome.fatal code (FatalReason.depUnresolved img dep) := by
  rcases topoSort_sound horder with ⟨hv, hperm, hnd⟩
  exact runImages_no_depUnresolved hv (fun x hx => hperm.mem_iff.mp hx) hdecl order [] [] []
    (List.nil_append order).symm (by simp)

theorem spec_C7_witness :
    (runImages exampleEnvLocal exampleCfgsC7 false none ["a", "b"] [] []).2 ≠
      RunOutcome.fatal 1 (FatalReason.depUnresolved "b" "a") :=
  spec_C7 exampleCfgsC7 exampleEnvLocal false none ["a", "b"] (by decide) (by decide) 1 "b" "a"

end Devkit
